import Mathlib

/-!
Shallow embedding of the Morton (Z-order) codec from `include/morton.h`
of the ocmesh repository.

Machine integers are modelled as `Nat` with explicit `% 2^w` wherever the
C++ unsigned arithmetic can overflow its width.  The axis tag
`coordinate_t` (x = 0, y = 1, z = 2) becomes a plain `Nat` shift argument.
-/

namespace Ocmesh

/-- The mask table `masks[]` from morton.h (index 0 is unused filler,
indices 1..4 are the butterfly masks). -/
def masks : Nat → Nat
  | 1 => 0x49249249
  | 2 => 0xC30C30C3
  | 3 => 0x0F00F00F
  | 4 => 0xFF0000FF
  | _ => 0

/-- `interleave(uint32_t x, int level)` from morton.h:
`level == 0 ? x : interleave((x | x << (1 << level)) & masks[level], level - 1)`.
The `|`/`<<` act on `uint32_t`, hence the `% 2^32`. -/
def interleaveLevel : Nat → Nat → Nat
  | x, 0 => x
  | x, level + 1 =>
      interleaveLevel (((x ||| x <<< (2 ^ (level + 1))) % 2 ^ 32) &&& masks (level + 1)) level

/-- `interleave(uint8_t x)` from morton.h: `interleave(uint32_t(x), 4)`. -/
def interleave (x : Nat) : Nat :=
  interleaveLevel x 4

/-- Entry `Idx` of the per-axis static table in `morton<S>(uint32_t, index_sequence)`:
`interleave(uint8_t(Idx)) << uint8_t(S)`, a `uint32_t`. -/
def mortonTable (S idx : Nat) : Nat :=
  (interleave idx <<< S) % 2 ^ 32

/-- `morton<S>(uint32_t value, index_sequence)` from morton.h: split `value`
into its three low bytes, look each up in the table and combine with
64-bit shifts and ors (the shift by 48 can overflow `uint64_t`, hence the
`% 2^64`). -/
def mortonAxis (S value : Nat) : Nat :=
  let low    := value &&& 0xFF
  let middle := (value >>> 8) &&& 0xFF
  let high   := (value >>> 16) &&& 0xFF
  ((mortonTable S high <<< 48) % 2 ^ 64) |||
  ((mortonTable S middle <<< 24) % 2 ^ 64) |||
  mortonTable S low

/-- `morton(glm::u32vec3)` from morton.h:
`morton<x>(v.x) | morton<y>(v.y) | morton<z>(v.z)`. -/
def morton (x y z : Nat) : Nat :=
  mortonAxis 0 x ||| mortonAxis 1 y ||| mortonAxis 2 z

/-- `unmorton<S>(uint64_t x)` from morton.h: shift by the axis offset, then
the six-stage inverse butterfly, finally cast to `uint32_t`. -/
def unmortonAxis (S m : Nat) : Nat :=
  let x0 := m >>> S
  let x1 := x0 &&& 0x9249249249249249
  let x2 := (x1 ||| (x1 >>> 2)) &&& 0x30C30C30C30C30C3
  let x3 := (x2 ||| (x2 >>> 4)) &&& 0xF00F00F00F00F00F
  let x4 := (x3 ||| (x3 >>> 8)) &&& 0x00FF0000FF0000FF
  let x5 := (x4 ||| (x4 >>> 16)) &&& 0xFFFF00000000FFFF
  let x6 := (x5 ||| (x5 >>> 32)) &&& 0xFFFFFFFF
  x6 % 2 ^ 32

/-- `unmorton(uint64_t m)` from morton.h: unpack the three components. -/
def unmorton (m : Nat) : Nat × Nat × Nat :=
  (unmortonAxis 0 m, unmortonAxis 1 m, unmortonAxis 2 m)

/-- Reference bit-spread, fuel-based: bit `i` of `v` (for `i < fuel`) moves
to bit `3*i`. -/
def spreadAux : Nat → Nat → Nat
  | 0, _ => 0
  | fuel + 1, v => (v % 2) ||| spreadAux fuel (v / 2) <<< 3

/-- Reference bit-spread of the 8 bits of a byte: bit `i` moves to bit `3*i`. -/
def spreadBits (b : Nat) : Nat :=
  spreadAux 8 b

/-- The reference interleaving of the spec, accumulated over bit indices
below `n`: bit `i` of `x` is placed at position `3*i`, bit `i` of `y` at
`3*i + 1`, bit `i` of `z` at `3*i + 2`, and no other bits are set. -/
def refSpecAux (x y z : Nat) : Nat → Nat
  | 0 => 0
  | n + 1 =>
      refSpecAux x y z n |||
      ((x >>> n) % 2) <<< (3 * n) |||
      ((y >>> n) % 2) <<< (3 * n + 1) |||
      ((z >>> n) % 2) <<< (3 * n + 2)

/-- The specification's reference definition of the Morton code: for
components restricted to 21 significant bits, bit `i` of `x` appears at
bit position `3*i`, bit `i` of `y` at `3*i + 1`, bit `i` of `z` at
`3*i + 2`, for `i < 21`, and no other bits are set. -/
def mortonSpec (x y z : Nat) : Nat :=
  refSpecAux x y z 21

end Ocmesh

namespace Ocmesh

open Nat

/-! ### Generic bit-level helpers -/

theorem testBit_false_of_le {m n k : Nat} (hm : m < 2 ^ n) (hk : n ≤ k) :
    testBit m k = false :=
  Nat.testBit_lt_two_pow (lt_of_lt_of_le hm (Nat.pow_le_pow_right (by norm_num) hk))

theorem lt_of_testBit_true {m n k : Nat} (hm : m < 2 ^ n) (hb : testBit m k = true) :
    k < n := by
  by_contra h
  rw [testBit_false_of_le hm (by omega)] at hb
  exact Bool.noConfusion hb

theorem testBit_mod_two (v k : Nat) : testBit (v % 2) k = true ↔ k = 0 ∧ v % 2 = 1 := by
  cases k with
  | zero => rw [Nat.testBit_zero, decide_eq_true_eq]; omega
  | succ k =>
      rw [Nat.testBit_add_one]
      have h : v % 2 / 2 = 0 := by omega
      rw [h, Nat.zero_testBit]
      exact ⟨fun h => Bool.noConfusion h, fun h => absurd h.1 (Nat.succ_ne_zero k)⟩

/-! ### Characterization of the bit-spread -/

theorem spreadAux_testBit (f : Nat) : ∀ v j, testBit (spreadAux f v) j = true ↔
    j % 3 = 0 ∧ j / 3 < f ∧ testBit v (j / 3) = true := by
  induction f with
  | zero =>
      intro v j
      show testBit 0 j = true ↔ _
      rw [Nat.zero_testBit]
      exact ⟨fun h => Bool.noConfusion h, fun h => absurd h.2.1 (Nat.not_lt_zero _)⟩
  | succ f ih =>
      intro v j
      show testBit ((v % 2) ||| spreadAux f (v / 2) <<< 3) j = true ↔ _
      rw [Nat.testBit_or, Bool.or_eq_true, Nat.testBit_shiftLeft, Bool.and_eq_true,
        decide_eq_true_eq, ih (v / 2) (j - 3), testBit_mod_two]
      constructor
      · rintro (⟨rfl, hv⟩ | ⟨h3, hmod, hlt, hb⟩)
        · refine ⟨by omega, by omega, ?_⟩
          rw [Nat.testBit_zero, decide_eq_true_eq]
          exact hv
        · refine ⟨by omega, by omega, ?_⟩
          have hj : j / 3 = (j - 3) / 3 + 1 := by omega
          rw [hj, Nat.testBit_add_one]
          exact hb
      · rintro ⟨hmod, hlt, hb⟩
        by_cases hj : j = 0
        · subst hj
          left
          rw [Nat.testBit_zero, decide_eq_true_eq] at hb
          exact ⟨rfl, hb⟩
        · right
          refine ⟨by omega, by omega, by omega, ?_⟩
          have hj3 : j / 3 = (j - 3) / 3 + 1 := by omega
          rw [hj3, Nat.testBit_add_one] at hb
          exact hb

theorem spreadBits_testBit (v j : Nat) : testBit (spreadBits v) j = true ↔
    j % 3 = 0 ∧ j / 3 < 8 ∧ testBit v (j / 3) = true :=
  spreadAux_testBit 8 v j

set_option maxRecDepth 4096 in
/-- The table builder agrees with the reference spread on every byte. -/
theorem interleave_eq_spreadBits {b : Nat} (hb : b < 256) :
    interleave b = spreadBits b := by
  have H : ∀ k : Fin 256, interleave k.val = spreadBits k.val := by decide
  exact H ⟨b, hb⟩

/-! ### Characterization of the encoder -/

theorem and_255_testBit (v k : Nat) : testBit (v &&& 0xFF) k = true ↔
    k < 8 ∧ testBit v k = true := by
  have h255 : (0xFF : Nat) = 2 ^ 8 - 1 := by norm_num
  rw [Nat.testBit_and, Bool.and_eq_true, h255, Nat.testBit_two_pow_sub_one,
    decide_eq_true_eq]
  exact ⟨fun ⟨a, b⟩ => ⟨b, a⟩, fun ⟨a, b⟩ => ⟨b, a⟩⟩

theorem mortonTable_testBit (S b i : Nat) (hb : b < 256) :
    testBit (mortonTable S b) i = true ↔
    i < 32 ∧ S ≤ i ∧ (i - S) % 3 = 0 ∧ (i - S) / 3 < 8 ∧ testBit b ((i - S) / 3) = true := by
  unfold mortonTable
  rw [interleave_eq_spreadBits hb, Nat.testBit_mod_two_pow, Bool.and_eq_true,
    decide_eq_true_eq, Nat.testBit_shiftLeft, Bool.and_eq_true, decide_eq_true_eq,
    spreadBits_testBit]

theorem mortonAxis_testBit (S v : Nat) (hS : S < 3) (i : Nat) :
    testBit (mortonAxis S v) i = true ↔
    i < 64 ∧ S ≤ i ∧ (i - S) % 3 = 0 ∧ (i - S) / 3 < 24 ∧ testBit v ((i - S) / 3) = true := by
  have hby : ∀ w : Nat, w &&& 0xFF < 256 := fun w =>
    lt_of_lt_of_le (Nat.and_lt_two_pow w (show (0xFF : Nat) < 2 ^ 8 by norm_num))
      (by norm_num)
  show testBit
      (((mortonTable S ((v >>> 16) &&& 0xFF) <<< 48) % 2 ^ 64) |||
       ((mortonTable S ((v >>> 8) &&& 0xFF) <<< 24) % 2 ^ 64) |||
       mortonTable S (v &&& 0xFF)) i = true ↔ _
  simp only [Nat.testBit_or, Bool.or_eq_true, Nat.testBit_mod_two_pow,
    Nat.testBit_shiftLeft, Bool.and_eq_true, decide_eq_true_eq, mortonTable_testBit,
    hby, and_255_testBit, Nat.testBit_shiftRight]
  constructor
  · rintro (((⟨hi64, h48, hlt, hSle, hmod, hdiv, h8, hb⟩ | ⟨hi64, h24, hlt, hSle, hmod, hdiv, h8, hb⟩) | ⟨hlt, hSle, hmod, hdiv, h8, hb⟩))
    · refine ⟨by omega, by omega, by omega, by omega, ?_⟩
      have he : 16 + (i - 48 - S) / 3 = (i - S) / 3 := by omega
      rw [he] at hb
      exact hb
    · refine ⟨by omega, by omega, by omega, by omega, ?_⟩
      have he : 8 + (i - 24 - S) / 3 = (i - S) / 3 := by omega
      rw [he] at hb
      exact hb
    · exact ⟨by omega, by omega, by omega, by omega, hb⟩
  · rintro ⟨hi64, hSle, hmod, hdiv, hb⟩
    by_cases hlo : (i - S) / 3 < 8
    · right
      exact ⟨by omega, by omega, by omega, by omega, by omega, hb⟩
    · by_cases hmid : (i - S) / 3 < 16
      · left; right
        refine ⟨by omega, by omega, by omega, by omega, by omega, by omega, ?_⟩
        have he : 8 + (i - 24 - S) / 3 = (i - S) / 3 := by omega
        rw [he]
        exact ⟨by omega, hb⟩
      · left; left
        refine ⟨by omega, by omega, by omega, by omega, by omega, by omega, ?_⟩
        have he : 16 + (i - 48 - S) / 3 = (i - S) / 3 := by omega
        rw [he]
        exact ⟨by omega, hb⟩

theorem morton_testBit (x y z i : Nat) :
    testBit (morton x y z) i = true ↔
    (i < 64 ∧ i % 3 = 0 ∧ i / 3 < 24 ∧ testBit x (i / 3) = true) ∨
    (i < 64 ∧ i % 3 = 1 ∧ i / 3 < 24 ∧ testBit y (i / 3) = true) ∨
    (i < 64 ∧ i % 3 = 2 ∧ i / 3 < 24 ∧ testBit z (i / 3) = true) := by
  show testBit (mortonAxis 0 x ||| mortonAxis 1 y ||| mortonAxis 2 z) i = true ↔ _
  rw [Nat.testBit_or, Nat.testBit_or, Bool.or_eq_true, Bool.or_eq_true,
    mortonAxis_testBit 0 x (by norm_num) i, mortonAxis_testBit 1 y (by norm_num) i,
    mortonAxis_testBit 2 z (by norm_num) i]
  constructor
  · rintro ((⟨h64, _, hmod, hdiv, hb⟩ | ⟨h64, hSle, hmod, hdiv, hb⟩) | ⟨h64, hSle, hmod, hdiv, hb⟩)
    · left
      refine ⟨h64, by omega, by omega, ?_⟩
      have he : (i - 0) / 3 = i / 3 := by omega
      rw [he] at hb
      exact hb
    · right; left
      refine ⟨h64, by omega, by omega, ?_⟩
      have he : (i - 1) / 3 = i / 3 := by omega
      rw [he] at hb
      exact hb
    · right; right
      refine ⟨h64, by omega, by omega, ?_⟩
      have he : (i - 2) / 3 = i / 3 := by omega
      rw [he] at hb
      exact hb
  · rintro (⟨h64, hmod, hdiv, hb⟩ | ⟨h64, hmod, hdiv, hb⟩ | ⟨h64, hmod, hdiv, hb⟩)
    · left; left
      refine ⟨h64, by omega, by omega, by omega, ?_⟩
      have he : (i - 0) / 3 = i / 3 := by omega
      rw [he]
      exact hb
    · left; right
      refine ⟨h64, by omega, by omega, by omega, ?_⟩
      have he : (i - 1) / 3 = i / 3 := by omega
      rw [he]
      exact hb
    · right
      refine ⟨h64, by omega, by omega, by omega, ?_⟩
      have he : (i - 2) / 3 = i / 3 := by omega
      rw [he]
      exact hb

theorem mortonAxis_lt (S v : Nat) : mortonAxis S v < 2 ^ 64 := by
  show (mortonTable S ((v >>> 16) &&& 0xFF) <<< 48) % 2 ^ 64 |||
       (mortonTable S ((v >>> 8) &&& 0xFF) <<< 24) % 2 ^ 64 |||
       mortonTable S (v &&& 0xFF) < 2 ^ 64
  refine Nat.or_lt_two_pow (Nat.or_lt_two_pow ?_ ?_) ?_
  · exact Nat.mod_lt _ (by norm_num)
  · exact Nat.mod_lt _ (by norm_num)
  · calc mortonTable S (v &&& 0xFF) < 2 ^ 32 := Nat.mod_lt _ (by norm_num)
      _ < 2 ^ 64 := by norm_num

theorem morton_lt (x y z : Nat) : morton x y z < 2 ^ 64 := by
  show mortonAxis 0 x ||| mortonAxis 1 y ||| mortonAxis 2 z < 2 ^ 64
  exact Nat.or_lt_two_pow (Nat.or_lt_two_pow (mortonAxis_lt 0 x) (mortonAxis_lt 1 y))
    (mortonAxis_lt 2 z)

/-! ### Characterization of the decoder masks -/

theorem maskM1_testBit (i : Nat) :
    testBit 0x9249249249249249 i = true ↔ i < 64 ∧ i % 3 < 1 := by
  by_cases h : i < 64
  · have H : ∀ k : Fin 64, testBit 0x9249249249249249 k.val = decide (k.val % 3 < 1) := by
      decide
    rw [H ⟨i, h⟩, decide_eq_true_eq]
    exact ⟨fun hh => ⟨h, hh⟩, fun hh => hh.2⟩
  · have hM : (0x9249249249249249 : Nat) < 2 ^ i :=
      lt_of_lt_of_le (show (0x9249249249249249 : Nat) < 2 ^ 64 by norm_num)
        (Nat.pow_le_pow_right (by norm_num) (by omega))
    rw [Nat.testBit_lt_two_pow hM]
    exact ⟨fun hh => Bool.noConfusion hh, fun hh => absurd hh.1 h⟩

theorem maskM2_testBit (i : Nat) :
    testBit 0x30C30C30C30C30C3 i = true ↔ i < 64 ∧ i % 6 < 2 := by
  by_cases h : i < 64
  · have H : ∀ k : Fin 64, testBit 0x30C30C30C30C30C3 k.val = decide (k.val % 6 < 2) := by
      decide
    rw [H ⟨i, h⟩, decide_eq_true_eq]
    exact ⟨fun hh => ⟨h, hh⟩, fun hh => hh.2⟩
  · have hM : (0x30C30C30C30C30C3 : Nat) < 2 ^ i :=
      lt_of_lt_of_le (show (0x30C30C30C30C30C3 : Nat) < 2 ^ 64 by norm_num)
        (Nat.pow_le_pow_right (by norm_num) (by omega))
    rw [Nat.testBit_lt_two_pow hM]
    exact ⟨fun hh => Bool.noConfusion hh, fun hh => absurd hh.1 h⟩

theorem maskM3_testBit (i : Nat) :
    testBit 0xF00F00F00F00F00F i = true ↔ i < 64 ∧ i % 12 < 4 := by
  by_cases h : i < 64
  · have H : ∀ k : Fin 64, testBit 0xF00F00F00F00F00F k.val = decide (k.val % 12 < 4) := by
      decide
    rw [H ⟨i, h⟩, decide_eq_true_eq]
    exact ⟨fun hh => ⟨h, hh⟩, fun hh => hh.2⟩
  · have hM : (0xF00F00F00F00F00F : Nat) < 2 ^ i :=
      lt_of_lt_of_le (show (0xF00F00F00F00F00F : Nat) < 2 ^ 64 by norm_num)
        (Nat.pow_le_pow_right (by norm_num) (by omega))
    rw [Nat.testBit_lt_two_pow hM]
    exact ⟨fun hh => Bool.noConfusion hh, fun hh => absurd hh.1 h⟩

theorem maskM4_testBit (i : Nat) :
    testBit 0x00FF0000FF0000FF i = true ↔ i < 64 ∧ i % 24 < 8 := by
  by_cases h : i < 64
  · have H : ∀ k : Fin 64, testBit 0x00FF0000FF0000FF k.val = decide (k.val % 24 < 8) := by
      decide
    rw [H ⟨i, h⟩, decide_eq_true_eq]
    exact ⟨fun hh => ⟨h, hh⟩, fun hh => hh.2⟩
  · have hM : (0x00FF0000FF0000FF : Nat) < 2 ^ i :=
      lt_of_lt_of_le (show (0x00FF0000FF0000FF : Nat) < 2 ^ 64 by norm_num)
        (Nat.pow_le_pow_right (by norm_num) (by omega))
    rw [Nat.testBit_lt_two_pow hM]
    exact ⟨fun hh => Bool.noConfusion hh, fun hh => absurd hh.1 h⟩

theorem maskM5_testBit (i : Nat) :
    testBit 0xFFFF00000000FFFF i = true ↔ i < 64 ∧ i % 48 < 16 := by
  by_cases h : i < 64
  · have H : ∀ k : Fin 64, testBit 0xFFFF00000000FFFF k.val = decide (k.val % 48 < 16) := by
      decide
    rw [H ⟨i, h⟩, decide_eq_true_eq]
    exact ⟨fun hh => ⟨h, hh⟩, fun hh => hh.2⟩
  · have hM : (0xFFFF00000000FFFF : Nat) < 2 ^ i :=
      lt_of_lt_of_le (show (0xFFFF00000000FFFF : Nat) < 2 ^ 64 by norm_num)
        (Nat.pow_le_pow_right (by norm_num) (by omega))
    rw [Nat.testBit_lt_two_pow hM]
    exact ⟨fun hh => Bool.noConfusion hh, fun hh => absurd hh.1 h⟩

theorem maskM6_testBit (i : Nat) :
    testBit 0xFFFFFFFF i = true ↔ i < 32 := by
  have h : (0xFFFFFFFF : Nat) = 2 ^ 32 - 1 := by norm_num
  rw [h, Nat.testBit_two_pow_sub_one, decide_eq_true_eq]

/-! ### The decoder butterfly, stage by stage

After each stage the live bits lie in fields of width `W` repeating with
period `3 * W * 2`; the bit at position `j` tracks bit `j + 2 * (j % P) + S`
of the original code. -/

theorem unmStep1 (S m : Nat) (j : Nat) :
    testBit ((m >>> S) &&& 0x9249249249249249) j = true ↔
    j < 64 ∧ j % 3 < 1 ∧ testBit m (j + 2 * (j % 3) + S) = true := by
  rw [Nat.testBit_and, Bool.and_eq_true, Nat.testBit_shiftRight, maskM1_testBit]
  constructor
  · rintro ⟨hb, hj, hr⟩
    refine ⟨hj, hr, ?_⟩
    have he : j + 2 * (j % 3) + S = S + j := by omega
    rw [he]
    exact hb
  · rintro ⟨hj, hr, hb⟩
    have he : S + j = j + 2 * (j % 3) + S := by omega
    rw [he]
    exact ⟨hb, hj, hr⟩

theorem unmStep2 (S m x : Nat)
    (hx : ∀ j, testBit x j = true ↔
      j < 64 ∧ j % 3 < 1 ∧ testBit m (j + 2 * (j % 3) + S) = true) (j : Nat) :
    testBit ((x ||| x >>> 2) &&& 0x30C30C30C30C30C3) j = true ↔
    j < 64 ∧ j % 6 < 2 ∧ testBit m (j + 2 * (j % 6) + S) = true := by
  rw [Nat.testBit_and, Bool.and_eq_true, Nat.testBit_or, Bool.or_eq_true,
    Nat.testBit_shiftRight, maskM2_testBit, hx j, hx (2 + j)]
  constructor
  · rintro ⟨⟨hj1, hr1, hb⟩ | ⟨hj1, hr1, hb⟩, hj64, hr⟩
    · refine ⟨hj64, hr, ?_⟩
      have he : j + 2 * (j % 6) + S = j + 2 * (j % 3) + S := by omega
      rw [he]
      exact hb
    · refine ⟨hj64, hr, ?_⟩
      have he : j + 2 * (j % 6) + S = 2 + j + 2 * ((2 + j) % 3) + S := by omega
      rw [he]
      exact hb
  · rintro ⟨hj64, hr, hb⟩
    refine ⟨?_, hj64, hr⟩
    by_cases hc : j % 6 < 1
    · left
      refine ⟨hj64, by omega, ?_⟩
      have he : j + 2 * (j % 3) + S = j + 2 * (j % 6) + S := by omega
      rw [he]
      exact hb
    · right
      refine ⟨by omega, by omega, ?_⟩
      have he : 2 + j + 2 * ((2 + j) % 3) + S = j + 2 * (j % 6) + S := by omega
      rw [he]
      exact hb

theorem unmStep3 (S m x : Nat) (hm : m < 2 ^ 64)
    (hx : ∀ j, testBit x j = true ↔
      j < 64 ∧ j % 6 < 2 ∧ testBit m (j + 2 * (j % 6) + S) = true) (j : Nat) :
    testBit ((x ||| x >>> 4) &&& 0xF00F00F00F00F00F) j = true ↔
    j < 64 ∧ j % 12 < 4 ∧ testBit m (j + 2 * (j % 12) + S) = true := by
  rw [Nat.testBit_and, Bool.and_eq_true, Nat.testBit_or, Bool.or_eq_true,
    Nat.testBit_shiftRight, maskM3_testBit, hx j, hx (4 + j)]
  constructor
  · rintro ⟨⟨hj1, hr1, hb⟩ | ⟨hj1, hr1, hb⟩, hj64, hr⟩
    · refine ⟨hj64, hr, ?_⟩
      have he : j + 2 * (j % 12) + S = j + 2 * (j % 6) + S := by omega
      rw [he]
      exact hb
    · refine ⟨hj64, hr, ?_⟩
      have he : j + 2 * (j % 12) + S = 4 + j + 2 * ((4 + j) % 6) + S := by omega
      rw [he]
      exact hb
  · rintro ⟨hj64, hr, hb⟩
    refine ⟨?_, hj64, hr⟩
    by_cases hc : j % 12 < 2
    · left
      refine ⟨hj64, by omega, ?_⟩
      have he : j + 2 * (j % 6) + S = j + 2 * (j % 12) + S := by omega
      rw [he]
      exact hb
    · by_cases hc2 : 4 + j < 64
      · right
        refine ⟨hc2, by omega, ?_⟩
        have he : 4 + j + 2 * ((4 + j) % 6) + S = j + 2 * (j % 12) + S := by omega
        rw [he]
        exact hb
      · exfalso
        rw [testBit_false_of_le hm (show 64 ≤ j + 2 * (j % 12) + S by omega)] at hb
        exact Bool.noConfusion hb

theorem unmStep4 (S m x : Nat)
    (hx : ∀ j, testBit x j = true ↔
      j < 64 ∧ j % 12 < 4 ∧ testBit m (j + 2 * (j % 12) + S) = true) (j : Nat) :
    testBit ((x ||| x >>> 8) &&& 0x00FF0000FF0000FF) j = true ↔
    j < 64 ∧ j % 24 < 8 ∧ testBit m (j + 2 * (j % 24) + S) = true := by
  rw [Nat.testBit_and, Bool.and_eq_true, Nat.testBit_or, Bool.or_eq_true,
    Nat.testBit_shiftRight, maskM4_testBit, hx j, hx (8 + j)]
  constructor
  · rintro ⟨⟨hj1, hr1, hb⟩ | ⟨hj1, hr1, hb⟩, hj64, hr⟩
    · refine ⟨hj64, hr, ?_⟩
      have he : j + 2 * (j % 24) + S = j + 2 * (j % 12) + S := by omega
      rw [he]
      exact hb
    · refine ⟨hj64, hr, ?_⟩
      have he : j + 2 * (j % 24) + S = 8 + j + 2 * ((8 + j) % 12) + S := by omega
      rw [he]
      exact hb
  · rintro ⟨hj64, hr, hb⟩
    refine ⟨?_, hj64, hr⟩
    by_cases hc : j % 24 < 4
    · left
      refine ⟨hj64, by omega, ?_⟩
      have he : j + 2 * (j % 12) + S = j + 2 * (j % 24) + S := by omega
      rw [he]
      exact hb
    · right
      refine ⟨by omega, by omega, ?_⟩
      have he : 8 + j + 2 * ((8 + j) % 12) + S = j + 2 * (j % 24) + S := by omega
      rw [he]
      exact hb

theorem unmStep5 (S m x : Nat) (hm : m < 2 ^ 64)
    (hx : ∀ j, testBit x j = true ↔
      j < 64 ∧ j % 24 < 8 ∧ testBit m (j + 2 * (j % 24) + S) = true) (j : Nat) :
    testBit ((x ||| x >>> 16) &&& 0xFFFF00000000FFFF) j = true ↔
    j < 64 ∧ j % 48 < 16 ∧ testBit m (j + 2 * (j % 48) + S) = true := by
  rw [Nat.testBit_and, Bool.and_eq_true, Nat.testBit_or, Bool.or_eq_true,
    Nat.testBit_shiftRight, maskM5_testBit, hx j, hx (16 + j)]
  constructor
  · rintro ⟨⟨hj1, hr1, hb⟩ | ⟨hj1, hr1, hb⟩, hj64, hr⟩
    · refine ⟨hj64, hr, ?_⟩
      have he : j + 2 * (j % 48) + S = j + 2 * (j % 24) + S := by omega
      rw [he]
      exact hb
    · refine ⟨hj64, hr, ?_⟩
      have he : j + 2 * (j % 48) + S = 16 + j + 2 * ((16 + j) % 24) + S := by omega
      rw [he]
      exact hb
  · rintro ⟨hj64, hr, hb⟩
    refine ⟨?_, hj64, hr⟩
    by_cases hc : j % 48 < 8
    · left
      refine ⟨hj64, by omega, ?_⟩
      have he : j + 2 * (j % 24) + S = j + 2 * (j % 48) + S := by omega
      rw [he]
      exact hb
    · by_cases hc2 : 16 + j < 64
      · right
        refine ⟨hc2, by omega, ?_⟩
        have he : 16 + j + 2 * ((16 + j) % 24) + S = j + 2 * (j % 48) + S := by omega
        rw [he]
        exact hb
      · exfalso
        rw [testBit_false_of_le hm (show 64 ≤ j + 2 * (j % 48) + S by omega)] at hb
        exact Bool.noConfusion hb

theorem unmStep6 (S m x : Nat)
    (hx : ∀ j, testBit x j = true ↔
      j < 64 ∧ j % 48 < 16 ∧ testBit m (j + 2 * (j % 48) + S) = true) (j : Nat) :
    testBit ((x ||| x >>> 32) &&& 0xFFFFFFFF) j = true ↔
    j < 32 ∧ testBit m (3 * j + S) = true := by
  rw [Nat.testBit_and, Bool.and_eq_true, Nat.testBit_or, Bool.or_eq_true,
    Nat.testBit_shiftRight, maskM6_testBit, hx j, hx (32 + j)]
  constructor
  · rintro ⟨⟨hj1, hr1, hb⟩ | ⟨hj1, hr1, hb⟩, hj32⟩
    · refine ⟨hj32, ?_⟩
      have he : 3 * j + S = j + 2 * (j % 48) + S := by omega
      rw [he]
      exact hb
    · refine ⟨hj32, ?_⟩
      have he : 3 * j + S = 32 + j + 2 * ((32 + j) % 48) + S := by omega
      rw [he]
      exact hb
  · rintro ⟨hj32, hb⟩
    refine ⟨?_, hj32⟩
    by_cases hc : j < 16
    · left
      refine ⟨by omega, by omega, ?_⟩
      have he : j + 2 * (j % 48) + S = 3 * j + S := by omega
      rw [he]
      exact hb
    · right
      refine ⟨by omega, by omega, ?_⟩
      have he : 32 + j + 2 * ((32 + j) % 48) + S = 3 * j + S := by omega
      rw [he]
      exact hb

/-- Full bit-level characterization of one decoded component: bit `j` of
`unmortonAxis S m` is bit `3*j + S` of the code. -/
theorem unmortonAxis_testBit (S m : Nat) (hm : m < 2 ^ 64) (j : Nat) :
    testBit (unmortonAxis S m) j = true ↔ j < 32 ∧ testBit m (3 * j + S) = true := by
  have key := unmStep6 S m _
    (unmStep5 S m _ hm
      (unmStep4 S m _
        (unmStep3 S m _ hm
          (unmStep2 S m _
            (unmStep1 S m)))))
  have hmod : ∀ a : Nat, (a &&& 0xFFFFFFFF) % 2 ^ 32 = a &&& 0xFFFFFFFF := fun a =>
    Nat.mod_eq_of_lt (Nat.and_lt_two_pow a (show (0xFFFFFFFF : Nat) < 2 ^ 32 by norm_num))
  unfold unmortonAxis
  simp only [hmod]
  exact key j

theorem unmortonAxis_lt (S m : Nat) : unmortonAxis S m < 2 ^ 32 := by
  unfold unmortonAxis
  exact Nat.mod_lt _ (by norm_num)

/-! ### Round-trip lemmas -/

theorem unmortonAxis_morton_x (x y z : Nat) (hx : x < 2 ^ 21) :
    unmortonAxis 0 (morton x y z) = x := by
  apply Nat.eq_of_testBit_eq
  intro j
  rw [Bool.eq_iff_iff, unmortonAxis_testBit 0 (morton x y z) (morton_lt x y z) j,
    morton_testBit]
  constructor
  · rintro ⟨hj32, ⟨h64, hmod, hdiv, hb⟩ | ⟨h64, hmod, hdiv, hb⟩ | ⟨h64, hmod, hdiv, hb⟩⟩
    · have he : (3 * j + 0) / 3 = j := by omega
      rw [he] at hb
      exact hb
    · exact absurd hmod (by omega)
    · exact absurd hmod (by omega)
  · intro hb
    have hj : j < 21 := lt_of_testBit_true hx hb
    refine ⟨by omega, Or.inl ⟨by omega, by omega, by omega, ?_⟩⟩
    have he : (3 * j + 0) / 3 = j := by omega
    rw [he]
    exact hb

theorem unmortonAxis_morton_y (x y z : Nat) (hy : y < 2 ^ 21) :
    unmortonAxis 1 (morton x y z) = y := by
  apply Nat.eq_of_testBit_eq
  intro j
  rw [Bool.eq_iff_iff, unmortonAxis_testBit 1 (morton x y z) (morton_lt x y z) j,
    morton_testBit]
  constructor
  · rintro ⟨hj32, ⟨h64, hmod, hdiv, hb⟩ | ⟨h64, hmod, hdiv, hb⟩ | ⟨h64, hmod, hdiv, hb⟩⟩
    · exact absurd hmod (by omega)
    · have he : (3 * j + 1) / 3 = j := by omega
      rw [he] at hb
      exact hb
    · exact absurd hmod (by omega)
  · intro hb
    have hj : j < 21 := lt_of_testBit_true hy hb
    refine ⟨by omega, Or.inr (Or.inl ⟨by omega, by omega, by omega, ?_⟩)⟩
    have he : (3 * j + 1) / 3 = j := by omega
    rw [he]
    exact hb

theorem unmortonAxis_morton_z (x y z : Nat) (hz : z < 2 ^ 21) :
    unmortonAxis 2 (morton x y z) = z := by
  apply Nat.eq_of_testBit_eq
  intro j
  rw [Bool.eq_iff_iff, unmortonAxis_testBit 2 (morton x y z) (morton_lt x y z) j,
    morton_testBit]
  constructor
  · rintro ⟨hj32, ⟨h64, hmod, hdiv, hb⟩ | ⟨h64, hmod, hdiv, hb⟩ | ⟨h64, hmod, hdiv, hb⟩⟩
    · exact absurd hmod (by omega)
    · exact absurd hmod (by omega)
    · have he : (3 * j + 2) / 3 = j := by omega
      rw [he] at hb
      exact hb
  · intro hb
    have hj : j < 21 := lt_of_testBit_true hz hb
    refine ⟨by omega, Or.inr (Or.inr ⟨by omega, by omega, by omega, ?_⟩)⟩
    have he : (3 * j + 2) / 3 = j := by omega
    rw [he]
    exact hb

/-- Shared round-trip lemma: decoding an encoded in-range vector restores it. -/
theorem unmorton_morton (x y z : Nat) (hx : x < 2 ^ 21) (hy : y < 2 ^ 21)
    (hz : z < 2 ^ 21) : unmorton (morton x y z) = (x, y, z) := by
  show (unmortonAxis 0 (morton x y z), unmortonAxis 1 (morton x y z),
        unmortonAxis 2 (morton x y z)) = (x, y, z)
  rw [unmortonAxis_morton_x x y z hx, unmortonAxis_morton_y x y z hy,
    unmortonAxis_morton_z x y z hz]

/-- Shared reverse round-trip lemma: re-encoding a decoded 64-bit code
restores the code exactly. -/
theorem morton_unmorton (m : Nat) (hm : m < 2 ^ 64) :
    morton (unmortonAxis 0 m) (unmortonAxis 1 m) (unmortonAxis 2 m) = m := by
  apply Nat.eq_of_testBit_eq
  intro i
  rw [Bool.eq_iff_iff, morton_testBit,
    unmortonAxis_testBit 0 m hm (i / 3), unmortonAxis_testBit 1 m hm (i / 3),
    unmortonAxis_testBit 2 m hm (i / 3)]
  constructor
  · rintro (⟨h64, hmod, hdiv, h32, hb⟩ | ⟨h64, hmod, hdiv, h32, hb⟩ |
      ⟨h64, hmod, hdiv, h32, hb⟩)
    · have he : 3 * (i / 3) + 0 = i := by omega
      rw [he] at hb
      exact hb
    · have he : 3 * (i / 3) + 1 = i := by omega
      rw [he] at hb
      exact hb
    · have he : 3 * (i / 3) + 2 = i := by omega
      rw [he] at hb
      exact hb
  · intro hb
    have h64 : i < 64 := lt_of_testBit_true hm hb
    by_cases h0 : i % 3 = 0
    · refine Or.inl ⟨h64, h0, by omega, by omega, ?_⟩
      have he : 3 * (i / 3) + 0 = i := by omega
      rw [he]
      exact hb
    · by_cases h1 : i % 3 = 1
      · refine Or.inr (Or.inl ⟨h64, h1, by omega, by omega, ?_⟩)
        have he : 3 * (i / 3) + 1 = i := by omega
        rw [he]
        exact hb
      · refine Or.inr (Or.inr ⟨h64, by omega, by omega, by omega, ?_⟩)
        have he : 3 * (i / 3) + 2 = i := by omega
        rw [he]
        exact hb

/-! ### Characterization of the reference (spec-side) encoder -/

theorem shiftRight_mod_two_eq (v n : Nat) :
    (v >>> n) % 2 = 1 ↔ testBit v n = true := by
  rw [Nat.testBit_to_div_mod, decide_eq_true_eq, Nat.shiftRight_eq_div_pow]

theorem refSpecAux_testBit (x y z : Nat) : ∀ n j,
    testBit (refSpecAux x y z n) j = true ↔
    (j % 3 = 0 ∧ j / 3 < n ∧ testBit x (j / 3) = true) ∨
    (j % 3 = 1 ∧ j / 3 < n ∧ testBit y (j / 3) = true) ∨
    (j % 3 = 2 ∧ j / 3 < n ∧ testBit z (j / 3) = true) := by
  intro n
  induction n with
  | zero =>
      intro j
      show testBit 0 j = true ↔ _
      rw [Nat.zero_testBit]
      constructor
      · intro h
        exact Bool.noConfusion h
      · rintro (⟨_, h, _⟩ | ⟨_, h, _⟩ | ⟨_, h, _⟩) <;> exact absurd h (Nat.not_lt_zero _)
  | succ n ih =>
      intro j
      show testBit (refSpecAux x y z n |||
        ((x >>> n) % 2) <<< (3 * n) |||
        ((y >>> n) % 2) <<< (3 * n + 1) |||
        ((z >>> n) % 2) <<< (3 * n + 2)) j = true ↔ _
      simp only [Nat.testBit_or, Bool.or_eq_true, Nat.testBit_shiftLeft,
        Bool.and_eq_true, decide_eq_true_eq, testBit_mod_two, ih j]
      constructor
      · rintro (((IH | ⟨hle, hz0, hb⟩) | ⟨hle, hz0, hb⟩) | ⟨hle, hz0, hb⟩)
        · rcases IH with ⟨a, b, c⟩ | ⟨a, b, c⟩ | ⟨a, b, c⟩
          · exact Or.inl ⟨a, by omega, c⟩
          · exact Or.inr (Or.inl ⟨a, by omega, c⟩)
          · exact Or.inr (Or.inr ⟨a, by omega, c⟩)
        · refine Or.inl ⟨by omega, by omega, ?_⟩
          have he : j / 3 = n := by omega
          rw [he]
          exact (shiftRight_mod_two_eq x n).mp hb
        · refine Or.inr (Or.inl ⟨by omega, by omega, ?_⟩)
          have he : j / 3 = n := by omega
          rw [he]
          exact (shiftRight_mod_two_eq y n).mp hb
        · refine Or.inr (Or.inr ⟨by omega, by omega, ?_⟩)
          have he : j / 3 = n := by omega
          rw [he]
          exact (shiftRight_mod_two_eq z n).mp hb
      · rintro (⟨hmod, hlt, hb⟩ | ⟨hmod, hlt, hb⟩ | ⟨hmod, hlt, hb⟩)
        · by_cases hn : j / 3 < n
          · exact Or.inl (Or.inl (Or.inl (Or.inl ⟨hmod, hn, hb⟩)))
          · refine Or.inl (Or.inl (Or.inr ⟨by omega, by omega, ?_⟩))
            apply (shiftRight_mod_two_eq x n).mpr
            have he : n = j / 3 := by omega
            rw [he]
            exact hb
        · by_cases hn : j / 3 < n
          · exact Or.inl (Or.inl (Or.inl (Or.inr (Or.inl ⟨hmod, hn, hb⟩))))
          · refine Or.inl (Or.inr ⟨by omega, by omega, ?_⟩)
            apply (shiftRight_mod_two_eq y n).mpr
            have he : n = j / 3 := by omega
            rw [he]
            exact hb
        · by_cases hn : j / 3 < n
          · exact Or.inl (Or.inl (Or.inl (Or.inr (Or.inr ⟨hmod, hn, hb⟩))))
          · refine Or.inr ⟨by omega, by omega, ?_⟩
            apply (shiftRight_mod_two_eq z n).mpr
            have he : n = j / 3 := by omega
            rw [he]
            exact hb

theorem morton_locality_x (x x' y z i : Nat) (h : x >>> 8 = x' >>> 8) (hi : 24 ≤ i) :
    testBit (morton x y z) i = testBit (morton x' y z) i := by
  have hbit : ∀ k, 8 ≤ k → testBit x k = testBit x' k := by
    intro k hk
    have h1 : testBit (x >>> 8) (k - 8) = testBit (x' >>> 8) (k - 8) := by rw [h]
    rw [Nat.testBit_shiftRight, Nat.testBit_shiftRight,
      show 8 + (k - 8) = k by omega] at h1
    exact h1
  rw [Bool.eq_iff_iff, morton_testBit, morton_testBit]
  constructor
  · rintro (⟨h64, hmod, hdiv, hb⟩ | hrest | hrest)
    · exact Or.inl ⟨h64, hmod, hdiv, by rw [← hbit (i / 3) (by omega)]; exact hb⟩
    · exact Or.inr (Or.inl hrest)
    · exact Or.inr (Or.inr hrest)
  · rintro (⟨h64, hmod, hdiv, hb⟩ | hrest | hrest)
    · exact Or.inl ⟨h64, hmod, hdiv, by rw [hbit (i / 3) (by omega)]; exact hb⟩
    · exact Or.inr (Or.inl hrest)
    · exact Or.inr (Or.inr hrest)

theorem morton_locality_y (x y y' z i : Nat) (h : y >>> 8 = y' >>> 8) (hi : 24 ≤ i) :
    testBit (morton x y z) i = testBit (morton x y' z) i := by
  have hbit : ∀ k, 8 ≤ k → testBit y k = testBit y' k := by
    intro k hk
    have h1 : testBit (y >>> 8) (k - 8) = testBit (y' >>> 8) (k - 8) := by rw [h]
    rw [Nat.testBit_shiftRight, Nat.testBit_shiftRight,
      show 8 + (k - 8) = k by omega] at h1
    exact h1
  rw [Bool.eq_iff_iff, morton_testBit, morton_testBit]
  constructor
  · rintro (hrest | ⟨h64, hmod, hdiv, hb⟩ | hrest)
    · exact Or.inl hrest
    · exact Or.inr (Or.inl ⟨h64, hmod, hdiv, by rw [← hbit (i / 3) (by omega)]; exact hb⟩)
    · exact Or.inr (Or.inr hrest)
  · rintro (hrest | ⟨h64, hmod, hdiv, hb⟩ | hrest)
    · exact Or.inl hrest
    · exact Or.inr (Or.inl ⟨h64, hmod, hdiv, by rw [hbit (i / 3) (by omega)]; exact hb⟩)
    · exact Or.inr (Or.inr hrest)

theorem morton_locality_z (x y z z' i : Nat) (h : z >>> 8 = z' >>> 8) (hi : 24 ≤ i) :
    testBit (morton x y z) i = testBit (morton x y z') i := by
  have hbit : ∀ k, 8 ≤ k → testBit z k = testBit z' k := by
    intro k hk
    have h1 : testBit (z >>> 8) (k - 8) = testBit (z' >>> 8) (k - 8) := by rw [h]
    rw [Nat.testBit_shiftRight, Nat.testBit_shiftRight,
      show 8 + (k - 8) = k by omega] at h1
    exact h1
  rw [Bool.eq_iff_iff, morton_testBit, morton_testBit]
  constructor
  · rintro (hrest | hrest | ⟨h64, hmod, hdiv, hb⟩)
    · exact Or.inl hrest
    · exact Or.inr (Or.inl hrest)
    · exact Or.inr (Or.inr ⟨h64, hmod, hdiv, by rw [← hbit (i / 3) (by omega)]; exact hb⟩)
  · rintro (hrest | hrest | ⟨h64, hmod, hdiv, hb⟩)
    · exact Or.inl hrest
    · exact Or.inr (Or.inl hrest)
    · exact Or.inr (Or.inr ⟨h64, hmod, hdiv, by rw [hbit (i / 3) (by omega)]; exact hb⟩)

/-! ### Claim theorems -/

/-- C1. Round-trip: for every coordinate triple with each component in
`[0, 2^21)`, decoding the encoded code returns the original triple:
`unmorton (morton x y z) = (x, y, z)`. -/
theorem unmorton_morton_roundtrip (x y z : Nat) (hx : x < 2 ^ 21) (hy : y < 2 ^ 21)
    (hz : z < 2 ^ 21) : unmorton (morton x y z) = (x, y, z) :=
  unmorton_morton x y z hx hy hz

theorem unmorton_morton_roundtrip_witness :
    unmorton (morton 123456 654321 2097151) = (123456, 654321, 2097151) :=
  unmorton_morton_roundtrip 123456 654321 2097151 (by norm_num) (by norm_num)
    (by norm_num)

/-- C2. The table-based encoder equals the reference bit-interleaving
definition `mortonSpec` (bit `i` of `x` at position `3*i`, of `y` at
`3*i + 1`, of `z` at `3*i + 2`, for `i < 21`, no other bits set) on all
inputs whose components lie in `[0, 2^21)`. -/
theorem morton_eq_mortonSpec (x y z : Nat) (hx : x < 2 ^ 21) (hy : y < 2 ^ 21)
    (hz : z < 2 ^ 21) : morton x y z = mortonSpec x y z := by
  apply Nat.eq_of_testBit_eq
  intro i
  rw [Bool.eq_iff_iff, morton_testBit, mortonSpec, refSpecAux_testBit]
  constructor
  · rintro (⟨h64, hmod, hdiv, hb⟩ | ⟨h64, hmod, hdiv, hb⟩ | ⟨h64, hmod, hdiv, hb⟩)
    · exact Or.inl ⟨hmod, lt_of_testBit_true hx hb, hb⟩
    · exact Or.inr (Or.inl ⟨hmod, lt_of_testBit_true hy hb, hb⟩)
    · exact Or.inr (Or.inr ⟨hmod, lt_of_testBit_true hz hb, hb⟩)
  · rintro (⟨hmod, hlt, hb⟩ | ⟨hmod, hlt, hb⟩ | ⟨hmod, hlt, hb⟩)
    · exact Or.inl ⟨by omega, hmod, by omega, hb⟩
    · exact Or.inr (Or.inl ⟨by omega, hmod, by omega, hb⟩)
    · exact Or.inr (Or.inr ⟨by omega, hmod, by omega, hb⟩)

theorem morton_eq_mortonSpec_witness : morton 100 200 300 = mortonSpec 100 200 300 :=
  morton_eq_mortonSpec 100 200 300 (by norm_num) (by norm_num) (by norm_num)

/-- C3, counterexample. The claim "bit 63 of `morton x y z` is zero for
arbitrary `uint32` components" is false: at `x = 2^21` (a valid `uint32`),
the code is exactly `2^63`. -/
theorem morton_bit63_counterexample :
    (2 : Nat) ^ 21 < 2 ^ 32 ∧ morton (2 ^ 21) 0 0 = 2 ^ 63 ∧
    ¬ morton (2 ^ 21) 0 0 < 2 ^ 63 := by
  refine ⟨by norm_num, by decide, by decide⟩

/-- C3, amended. Bit 63 of `morton x y z` can only come from bit 21 of the
`x` component; whenever that bit is clear — in particular whenever all
components lie in `[0, 2^21)` — the code is below `2^63`. -/
theorem morton_lt_two_pow_63 (x y z : Nat) (hx21 : testBit x 21 = false) :
    morton x y z < 2 ^ 63 := by
  apply Nat.lt_pow_two_of_testBit
  intro i hi
  cases hON : testBit (morton x y z) i with
  | false => rfl
  | true =>
      rw [morton_testBit] at hON
      exfalso
      rcases hON with ⟨h64, hmod, hdiv, hb⟩ | ⟨h64, hmod, _, _⟩ | ⟨h64, hmod, _, _⟩
      · have he : i = 63 := by omega
        subst he
        rw [show (63 : Nat) / 3 = 21 by norm_num, hx21] at hb
        exact Bool.noConfusion hb
      · omega
      · omega

theorem morton_lt_two_pow_63_witness : morton 0 4194303 4194303 < 2 ^ 63 :=
  morton_lt_two_pow_63 0 4194303 4194303 (by decide)

/-- C4. Injectivity on the valid range: distinct vectors whose components
all lie in `[0, 2^21)` get distinct Morton codes. -/
theorem morton_injective_on_range (x₁ y₁ z₁ x₂ y₂ z₂ : Nat)
    (hx₁ : x₁ < 2 ^ 21) (hy₁ : y₁ < 2 ^ 21) (hz₁ : z₁ < 2 ^ 21)
    (hx₂ : x₂ < 2 ^ 21) (hy₂ : y₂ < 2 ^ 21) (hz₂ : z₂ < 2 ^ 21)
    (hne : (x₁, y₁, z₁) ≠ (x₂, y₂, z₂)) :
    morton x₁ y₁ z₁ ≠ morton x₂ y₂ z₂ := by
  intro heq
  apply hne
  have h1 := unmorton_morton x₁ y₁ z₁ hx₁ hy₁ hz₁
  have h2 := unmorton_morton x₂ y₂ z₂ hx₂ hy₂ hz₂
  rw [← h1, ← h2, heq]

theorem morton_injective_on_range_witness : morton 0 0 0 ≠ morton 1 0 0 :=
  morton_injective_on_range 0 0 0 1 0 0 (by norm_num) (by norm_num) (by norm_num)
    (by norm_num) (by norm_num) (by norm_num) (by decide)

/-- C5. Table builder contract: for every byte `b`, `interleave b` is the
word whose bit at position `3*i` (for `i < 8`) is bit `i` of `b`, with
every other bit zero. -/
theorem interleave_spreads_bits (b : Nat) (hb : b < 256) (j : Nat) :
    testBit (interleave b) j = true ↔ j % 3 = 0 ∧ j / 3 < 8 ∧ testBit b (j / 3) = true := by
  rw [interleave_eq_spreadBits hb]
  exact spreadBits_testBit b j

theorem interleave_spreads_bits_witness :
    testBit (interleave 165) 6 = true ↔ 6 % 3 = 0 ∧ 6 / 3 < 8 ∧ testBit 165 (6 / 3) = true :=
  interleave_spreads_bits 165 (by norm_num) 6

/-- C6. Axis isolation: a code built from a single nonzero component only
has set bits at positions congruent to that axis's offset modulo 3. -/
theorem morton_axis_isolation :
    (∀ c i : Nat, testBit (morton c 0 0) i = true → i % 3 = 0) ∧
    (∀ c i : Nat, testBit (morton 0 c 0) i = true → i % 3 = 1) ∧
    (∀ c i : Nat, testBit (morton 0 0 c) i = true → i % 3 = 2) := by
  refine ⟨fun c i hb => ?_, fun c i hb => ?_, fun c i hb => ?_⟩ <;>
    rw [morton_testBit] at hb <;>
    rcases hb with ⟨_, hmod, _, hz⟩ | ⟨_, hmod, _, hz⟩ | ⟨_, hmod, _, hz⟩ <;>
    first
      | exact hmod
      | (rw [Nat.zero_testBit] at hz; exact Bool.noConfusion hz)

theorem morton_axis_isolation_witness :
    (0 : Nat) % 3 = 0 ∧ (1 : Nat) % 3 = 1 ∧ (2 : Nat) % 3 = 2 :=
  ⟨morton_axis_isolation.1 1 0 (by decide), morton_axis_isolation.2.1 1 1 (by decide),
    morton_axis_isolation.2.2 1 2 (by decide)⟩

/-- C7. Locality: if two encoder inputs differ only in the low 8 bits of
exactly one component (equal upper bits of that component, other two
components equal), the codes agree on every bit position at 24 and above. -/
theorem morton_locality :
    (∀ x x' y z i : Nat, x >>> 8 = x' >>> 8 → 24 ≤ i →
      testBit (morton x y z) i = testBit (morton x' y z) i) ∧
    (∀ x y y' z i : Nat, y >>> 8 = y' >>> 8 → 24 ≤ i →
      testBit (morton x y z) i = testBit (morton x y' z) i) ∧
    (∀ x y z z' i : Nat, z >>> 8 = z' >>> 8 → 24 ≤ i →
      testBit (morton x y z) i = testBit (morton x y z') i) :=
  ⟨fun x x' y z i h hi => morton_locality_x x x' y z i h hi,
   fun x y y' z i h hi => morton_locality_y x y y' z i h hi,
   fun x y z z' i h hi => morton_locality_z x y z z' i h hi⟩

theorem morton_locality_witness :
    testBit (morton 5 3 9) 24 = testBit (morton 200 3 9) 24 :=
  morton_locality.1 5 200 3 9 24 (by decide) (by norm_num)

/-- C8. Specified literal values of the encoder and decoder. -/
theorem morton_literal_values :
    morton 0 0 0 = 0 ∧ morton 1 0 0 = 1 ∧ morton 0 1 0 = 2 ∧ morton 0 0 1 = 4 ∧
    morton 1 1 1 = 7 ∧ unmorton 0 = (0, 0, 0) ∧ unmorton 7 = (1, 1, 1) := by
  refine ⟨by decide, by decide, by decide, by decide, by decide, by decide, by decide⟩

/-- C9. Totality: both operations are pure total functions of their
arguments; every encoded code fits in 64 bits and every decoded component
fits in 32 bits, for all inputs. -/
theorem morton_unmorton_total :
    (∀ x y z : Nat, morton x y z < 2 ^ 64) ∧
    (∀ m : Nat, (unmorton m).1 < 2 ^ 32 ∧ (unmorton m).2.1 < 2 ^ 32 ∧
      (unmorton m).2.2 < 2 ^ 32) :=
  ⟨morton_lt, fun m => ⟨unmortonAxis_lt 0 m, unmortonAxis_lt 1 m, unmortonAxis_lt 2 m⟩⟩

/-- C10. Reverse round-trip: for every 64-bit code `m`, re-encoding the
decoded triple reproduces `m`; hence `unmorton` is injective on 64-bit
codes and `morton` is surjective onto them. -/
theorem morton_unmorton_inverse :
    (∀ m : Nat, m < 2 ^ 64 →
      morton (unmorton m).1 (unmorton m).2.1 (unmorton m).2.2 = m) ∧
    (∀ m₁ m₂ : Nat, m₁ < 2 ^ 64 → m₂ < 2 ^ 64 → unmorton m₁ = unmorton m₂ → m₁ = m₂) ∧
    (∀ m : Nat, m < 2 ^ 64 → ∃ x y z : Nat, morton x y z = m) := by
  refine ⟨fun m hm => morton_unmorton m hm, fun m₁ m₂ h1 h2 he => ?_,
    fun m hm => ⟨unmortonAxis 0 m, unmortonAxis 1 m, unmortonAxis 2 m,
      morton_unmorton m hm⟩⟩
  simp only [unmorton, Prod.mk.injEq] at he
  obtain ⟨e0, e1, e2⟩ := he
  rw [← morton_unmorton m₁ h1, ← morton_unmorton m₂ h2, e0, e1, e2]

theorem morton_unmorton_inverse_witness :
    morton (unmorton 9876543210).1 (unmorton 9876543210).2.1
      (unmorton 9876543210).2.2 = 9876543210 :=
  morton_unmorton_inverse.1 9876543210 (by norm_num)

end Ocmesh
